import Mathlib

/-!
Verification of the incremental line-stream engine of the
Large-file-streamer repository (`src/components/LogViewer.tsx` and the
live-tailing variant `src/unnamed/part_006`).

The embedding works at the level of decoded text: a chunk is the `List Char`
obtained from `decoder.decode(value, { stream: true })`.  The streaming
`TextDecoder` contract guarantees that the decoded texts of consecutive
chunks concatenate to the decoding of the whole byte stream, so properties
quantified over "all chunkings of B" are stated over all lists of character
chunks whose concatenation is the decoding of B.  A separate byte-level
model (`stepBytes`/`runBytes`) keeps raw bytes and an abstract decoder for
the `totalBytes` accounting, which the code performs on the raw
`value.length` before decoding.
-/

namespace LFS

/-- The line terminator the viewer splits on (`buffer.split('\n')`). -/
def NL : Char := '\n'

/-- Embedding of the split-and-pop step
`const lines = buffer.split('\n'); buffer = lines.pop() || ''`:
given decoded text, returns the completed segments (everything
`split('\n')` produces except its last element) together with the trailing
segment (the popped last element, the new pending fragment). -/
def splitNL : List Char → List (List Char) × List Char
  | [] => ([], [])
  | c :: rest =>
    match splitNL rest with
    | (ls, b) =>
      if c = NL then ([] :: ls, b)
      else
        match ls with
        | [] => ([], c :: b)
        | l :: ls2 => ((c :: l) :: ls2, b)

/-- Full JavaScript `text.split('\n')`: completed segments plus the
trailing segment.  Used by the tail poller, which does not pop a pending
fragment. -/
def jsSplitAll (s : List Char) : List (List Char) :=
  (splitNL s).1 ++ [(splitNL s).2]

/-- Reinsert the terminators that `split('\n')` removed: every completed
line gets its `'\n'` back, the pending fragment is appended bare. -/
def rejoin (ls : List (List Char)) (b : List Char) : List Char :=
  (ls.map (fun l => l ++ [NL])).flatten ++ b

/-- State of the streaming consume loop: the lines pushed so far and the
pending line fragment (`buffer`). -/
structure RState where
  lines : List (List Char)
  buffer : List Char
  deriving DecidableEq, Repr

/-- Initial state: `let buffer = ''; let allLines = []`. -/
def initR : RState := ⟨[], []⟩

/-- One iteration of the consume loop on a decoded chunk:
`buffer += chunk; const lines = buffer.split('\n'); buffer = lines.pop() || '';
allLines.push(...lines)`. -/
def stepR (st : RState) (chunk : List Char) : RState :=
  let p := splitNL (st.buffer ++ chunk)
  ⟨st.lines ++ p.1, p.2⟩

/-- Consume a whole sequence of decoded chunks. -/
def runR (chunks : List (List Char)) : RState :=
  chunks.foldl stepR initR

/-- End-of-stream flush: `if (buffer) { allLines.push(buffer) }`. -/
def flushR (st : RState) : List (List Char) :=
  if st.buffer = [] then st.lines else st.lines ++ [st.buffer]

/-- The loop invariant: reinserting terminators into the emitted lines and
appending the pending fragment reproduces the consumed text, and neither
the emitted lines nor the fragment contain a terminator. -/
def InvR (consumed : List Char) (st : RState) : Prop :=
  rejoin st.lines st.buffer = consumed ∧
    (∀ l ∈ st.lines, NL ∉ l) ∧ NL ∉ st.buffer

/-- A raw byte of an arriving chunk (`value : Uint8Array`). -/
abbrev Byte := Nat

/-- State of the byte-level consume loop: the `totalBytes` counter, the
streaming `TextDecoder` state (abstract), the pending fragment and the
emitted lines. -/
structure BState (σ : Type) where
  totalBytes : Nat
  dec : σ
  buffer : List Char
  lines : List (List Char)

/-- One loop iteration at the byte level, in source order:
`setTotalBytes(prev => prev + value.length)` increments by the raw byte
length of the chunk, then `decoder.decode(value, { stream: true })` turns
the bytes into text through an abstract stateful decoder, then the
split-and-pop step runs on the decoded text. -/
def stepBytes {σ : Type} (decode : σ → List Byte → σ × List Char)
    (st : BState σ) (value : List Byte) : BState σ :=
  let tb := st.totalBytes + value.length
  let d := decode st.dec value
  let p := splitNL (st.buffer ++ d.2)
  ⟨tb, d.1, p.2, st.lines ++ p.1⟩

/-- Consume a whole sequence of raw byte chunks. -/
def runBytes {σ : Type} (decode : σ → List Byte → σ × List Char) (d0 : σ)
    (chunks : List (List Byte)) : BState σ :=
  chunks.foldl (stepBytes decode) ⟨0, d0, [], []⟩

/-- Constant `MAX_DISPLAY_LINES` of `src/components/LogViewer.tsx`. -/
def MAX_DISPLAY_LINES : Nat := 5000

/-- The memory-control trim of the non-tailing viewer:
`if (allLines.length > MAX_DISPLAY_LINES) allLines =
allLines.slice(allLines.length - MAX_DISPLAY_LINES)`. -/
def trimTsx (ls : List (List Char)) : List (List Char) :=
  if MAX_DISPLAY_LINES < ls.length then ls.drop (ls.length - MAX_DISPLAY_LINES)
  else ls

/-- The last `n` elements of a list, in order. -/
def lastN (n : Nat) (l : List α) : List α := l.drop (l.length - n)

/-- The status values the viewers assign with `setStatus`.  `streaming`
stands for the string literal `'Streaming log data...'`, `finished` for
`'Stream finished.'`, `cancelled` for `'Stream cancelled.'`, `errored` for
`'Error occurred.'`, `live` for `'Live'`, and `liveError` for
`'Live (Error)'`. -/
inductive ViewStatus where
  | streaming
  | finished
  | cancelled
  | errored
  | live
  | liveError
  deriving DecidableEq, Repr

/-- State of the non-tailing viewer's streaming session
(`src/components/LogViewer.tsx`).  `allLines` is the local accumulator of
`streamLogFile`; `logLines` is the React state the UI reads, written only
by `setLogLines`, which the non-tailing variant calls only in the
`done` branch. -/
structure TsxState where
  logLines : List (List Char)
  allLines : List (List Char)
  buffer : List Char
  totalBytes : Nat
  status : ViewStatus
  deriving DecidableEq, Repr

/-- State after `setLogLines([]); setTotalBytes(0)` and entry into the
read loop. -/
def tsxInit : TsxState := ⟨[], [], [], 0, ViewStatus.streaming⟩

/-- One iteration of the non-tailing consume loop:
count the raw bytes, split-and-pop, and
`if (lines.length > 0) { allLines.push(...lines); trim }`. -/
def tsxStep (st : TsxState) (chunk : List Char) : TsxState :=
  let p := splitNL (st.buffer ++ chunk)
  let all := if p.1 = [] then st.allLines else trimTsx (st.allLines ++ p.1)
  { st with
    allLines := all
    buffer := p.2
    totalBytes := st.totalBytes + chunk.length }

def tsxRun (chunks : List (List Char)) : TsxState := chunks.foldl tsxStep tsxInit

/-- The `done` branch: flush the pending fragment, trim, commit the
accumulator to the React state, set the finished status. -/
def tsxFinish (st : TsxState) : TsxState :=
  let all := if st.buffer = [] then st.allLines else st.allLines ++ [st.buffer]
  let all2 := trimTsx all
  { st with allLines := all2, logLines := all2, status := ViewStatus.finished }

/-- The `AbortError` branch of the catch: only the status changes. -/
def tsxCancel (st : TsxState) : TsxState := { st with status := ViewStatus.cancelled }

/-- State of the live-tailing viewer's initial streaming session
(`src/unnamed/part_006`).  Unlike the non-tailing variant, every loop
iteration commits its completed lines to the React state at once:
`if (lines.length > 0) setLogLines(prev => [...prev, ...lines])`. -/
structure P6State where
  logLines : List (List Char)
  buffer : List Char
  totalBytes : Nat
  status : ViewStatus
  deriving DecidableEq, Repr

def p6Init : P6State := ⟨[], [], 0, ViewStatus.streaming⟩

/-- One iteration of the live-tailing variant's initial consume loop. -/
def p6Step (st : P6State) (chunk : List Char) : P6State :=
  let p := splitNL (st.buffer ++ chunk)
  { st with
    logLines := if p.1 = [] then st.logLines else st.logLines ++ p.1
    buffer := p.2
    totalBytes := st.totalBytes + chunk.length }

def p6Run (chunks : List (List Char)) : P6State := chunks.foldl p6Step p6Init

/-- The `done` branch: `if (buffer) setLogLines(prev => [...prev, buffer]);
setStatus('Stream finished.')`. -/
def p6Finish (st : P6State) : P6State :=
  { st with
    logLines := if st.buffer = [] then st.logLines else st.logLines ++ [st.buffer]
    status := ViewStatus.finished }

/-- The `AbortError` branch of the catch: only
`setStatus('Stream cancelled.')` runs. -/
def p6Cancel (st : P6State) : P6State := { st with status := ViewStatus.cancelled }

/-- The characters `String.prototype.trim` removes: ECMAScript WhiteSpace
and LineTerminator code points. -/
def isJsWs (c : Char) : Bool :=
  c.toNat = 0x09 || c.toNat = 0x0A || c.toNat = 0x0B || c.toNat = 0x0C ||
  c.toNat = 0x0D || c.toNat = 0x20 || c.toNat = 0xA0 || c.toNat = 0x1680 ||
  (0x2000 ≤ c.toNat && c.toNat ≤ 0x200A) || c.toNat = 0x2028 ||
  c.toNat = 0x2029 || c.toNat = 0x202F || c.toNat = 0x205F ||
  c.toNat = 0x3000 || c.toNat = 0xFEFF

/-- Embedding of `l.trim()`: strip leading and trailing whitespace. -/
def jsTrim (l : List Char) : List Char :=
  ((l.dropWhile isJsWs).reverse.dropWhile isJsWs).reverse

/-- The tail poller's keep test `l.trim() !== ''`. -/
def nonBlank (l : List Char) : Bool := !(jsTrim l).isEmpty

/-- A response to one tail poll (`fetch` with a `Range: bytes=...` header
in `tailLogFile` of `src/unnamed/part_006`). -/
inductive TailResponse where
  | notModified
  | content (byteLen : Nat) (text : List Char)
  | failure
  deriving DecidableEq, Repr

/-- The state the tail poller touches: the line store, the byte offset used
as the resume point, the live flag, the status, and whether the
whole-session error view is active (`error !== null`). -/
structure TailState where
  logLines : List (List Char)
  totalBytes : Nat
  isLive : Bool
  status : ViewStatus
  errorView : Bool
  deriving DecidableEq, Repr

/-- A tail session state right after the initial stream finished. -/
def tailInit : TailState := ⟨[], 0, true, ViewStatus.live, false⟩

/-- One tail poll (`tailLogFile`): a 416 response returns with no state
change; a content response of `byteLen` raw bytes decoding to `text` does
`chunk.split('\n').filter(l => l.trim() !== '')`, appends the surviving
segments and advances `totalBytes` by the raw `newContent.byteLength`; a
thrown error sets status `Live (Error)` and `setIsLive(false)`, touching
neither the store nor the error view. -/
def tailStep (st : TailState) (r : TailResponse) : TailState :=
  match r with
  | TailResponse.notModified => st
  | TailResponse.content byteLen text =>
    if 0 < byteLen then
      let newLines := (jsSplitAll text).filter nonBlank
      { st with
        logLines := if newLines = [] then st.logLines else st.logLines ++ newLines
        totalBytes := st.totalBytes + byteLen }
    else st
  | TailResponse.failure =>
    { st with status := ViewStatus.liveError, isLive := false }

/-- The polling loop: the `setInterval` callback only runs while `isLive`
holds; after `setIsLive(false)` the effect clears the interval, so later
scheduled polls do nothing. -/
def runTail (st : TailState) (rs : List TailResponse) : TailState :=
  rs.foldl (fun s r => if s.isLive then tailStep s r else s) st

/-- Embedding of `s.toLowerCase()`, modelled per character with `Char.toLower`. -/
def toLowerStr (s : List Char) : List Char := s.map Char.toLower

/-- Does the haystack (second argument) start with the needle (first
argument)?  Helper for the substring search of `String.prototype.includes`. -/
def leadsWith : List Char → List Char → Bool
  | [], _ => true
  | _ :: _, [] => false
  | a :: as, b :: bs => a == b && leadsWith as bs

/-- JavaScript `hay.includes(needle)`: substring containment. -/
def hasSub : List Char → List Char → Bool
  | [], needle => needle.isEmpty
  | h :: t, needle => leadsWith needle (h :: t) || hasSub t needle

/-- The `filteredLines` memo of both viewer variants: pair every stored
line with its 0-based index; with an empty debounced term pass everything
through, otherwise keep the pairs whose lower-cased line contains the
lower-cased term. -/
def filteredLines (logLines : List (List Char)) (debouncedSearchTerm : List Char) :
    List (Nat × List Char) :=
  let linesWithIndices := logLines.enum
  if debouncedSearchTerm = [] then linesWithIndices
  else
    linesWithIndices.filter
      (fun p => hasSub (toLowerStr p.2) (toLowerStr debouncedSearchTerm))

/-- Constant `ROW_HEIGHT` of both viewer variants. -/
def ROW_HEIGHT : Nat := 22

/-- Exact ceiling division on naturals: the value `Math.ceil(a / b)` takes
for natural inputs and positive `b`. -/
def ceilDiv (a b : Nat) : Nat := (a + b - 1) / b

/-- Embedding of `const startIndex = Math.max(0, Math.floor(scrollTop / ROW_HEIGHT) - 10)`. -/
def startIndex (scrollTop : Nat) : Nat :=
  max 0 (scrollTop / ROW_HEIGHT - 10)

/-- Embedding of `const endIndex = Math.min(filteredLines.length,
Math.ceil((scrollTop + containerHeight) / ROW_HEIGHT) + 10)`. -/
def endIndex (totalRows scrollTop containerHeight : Nat) : Nat :=
  min totalRows (ceilDiv (scrollTop + containerHeight) ROW_HEIGHT + 10)

/-- Embedding of `filteredLines.slice(startIndex, endIndex)`. -/
def jsSlice (l : List α) (s e : Nat) : List α := (l.take e).drop s

/-- Modelled from the spec:
`startIndex = max(0, floor(scrollOffset / rowHeight) - margin)` over the
integers with true floor, `rowHeight = 22`, `margin = 10`. -/
def specStartIndex (scrollOffset : Nat) : Int :=
  max 0 (⌊(scrollOffset : ℚ) / 22⌋ - 10)

/-- Modelled from the spec:
`endIndex = min(totalRows, ceil((scrollOffset + containerHeight) / rowHeight) + margin)`
over the integers with true ceiling, `rowHeight = 22`, `margin = 10`. -/
def specEndIndex (totalRows scrollOffset containerHeight : Nat) : Int :=
  min (totalRows : Int) (⌈((scrollOffset + containerHeight : Nat) : ℚ) / 22⌉ + 10)

theorem rejoin_nil (b : List Char) : rejoin [] b = b := by
  simp [rejoin]

theorem rejoin_cons (l : List Char) (ls : List (List Char)) (b : List Char) :
    rejoin (l :: ls) b = l ++ NL :: rejoin ls b := by
  simp [rejoin]

theorem rejoin_splitNL (s : List Char) :
    rejoin (splitNL s).1 (splitNL s).2 = s := by
  induction s with
  | nil => rfl
  | cons c rest ih =>
    rcases h : splitNL rest with ⟨ls, b⟩
    rw [h] at ih
    have ih2 : rejoin ls b = rest := ih
    by_cases hc : c = NL
    · simp only [splitNL, h, if_pos hc]
      show rejoin ([] :: ls) b = c :: rest
      rw [rejoin_cons, ih2, hc]
      simp
    · simp only [splitNL, h, if_neg hc]
      cases ls with
      | nil =>
        show rejoin [] (c :: b) = c :: rest
        rw [rejoin_nil] at ih2
        rw [rejoin_nil, ih2]
      | cons l ls2 =>
        show rejoin ((c :: l) :: ls2) b = c :: rest
        rw [rejoin_cons] at ih2
        rw [rejoin_cons, ← ih2]
        simp

theorem nl_not_mem_splitNL (s : List Char) :
    (∀ l ∈ (splitNL s).1, NL ∉ l) ∧ NL ∉ (splitNL s).2 := by
  induction s with
  | nil => simp [splitNL]
  | cons c rest ih =>
    rcases h : splitNL rest with ⟨ls, b⟩
    rw [h] at ih
    have ih2 : (∀ l ∈ ls, NL ∉ l) ∧ NL ∉ b := ih
    by_cases hc : c = NL
    · simp only [splitNL, h, if_pos hc]
      show (∀ l ∈ [] :: ls, NL ∉ l) ∧ NL ∉ b
      refine ⟨?_, ih2.2⟩
      intro l hl
      rcases List.mem_cons.mp hl with h1 | h1
      · subst h1; simp
      · exact ih2.1 l h1
    · simp only [splitNL, h, if_neg hc]
      cases ls with
      | nil =>
        show (∀ l ∈ ([] : List (List Char)), NL ∉ l) ∧ NL ∉ c :: b
        refine ⟨by simp, ?_⟩
        simp only [List.mem_cons]
        rintro (h1 | h1)
        · exact hc h1.symm
        · exact ih2.2 h1
      | cons l ls2 =>
        show (∀ l2 ∈ (c :: l) :: ls2, NL ∉ l2) ∧ NL ∉ b
        constructor
        · intro l2 hl2
          rcases List.mem_cons.mp hl2 with h1 | h1
          · subst h1
            simp only [List.mem_cons]
            rintro (h2 | h2)
            · exact hc h2.symm
            · exact ih2.1 l (by simp) h2
          · exact ih2.1 l2 (by simp [h1])
        · exact ih2.2

theorem invR_init : InvR [] initR := by
  refine ⟨rfl, by simp [initR], by simp [initR]⟩

theorem rejoin_append (ls1 ls2 : List (List Char)) (b : List Char) :
    rejoin (ls1 ++ ls2) b = rejoin ls1 [] ++ rejoin ls2 b := by
  simp [rejoin]

theorem invR_step (consumed : List Char) (st : RState) (chunk : List Char)
    (h : InvR consumed st) : InvR (consumed ++ chunk) (stepR st chunk) := by
  obtain ⟨hj, hls, hb⟩ := h
  refine ⟨?_, ?_, ?_⟩
  · show rejoin (st.lines ++ (splitNL (st.buffer ++ chunk)).1)
      (splitNL (st.buffer ++ chunk)).2 = consumed ++ chunk
    rw [rejoin_append, rejoin_splitNL, ← hj]
    simp [rejoin]
  · intro l hl
    rcases List.mem_append.mp hl with h1 | h1
    · exact hls l h1
    · exact (nl_not_mem_splitNL (st.buffer ++ chunk)).1 l h1
  · exact (nl_not_mem_splitNL (st.buffer ++ chunk)).2

theorem invR_runR (chunks : List (List Char)) : InvR chunks.flatten (runR chunks) := by
  suffices h : ∀ (cs : List (List Char)) (pre : List Char) (st : RState),
      InvR pre st → InvR (pre ++ cs.flatten) (cs.foldl stepR st) by
    have := h chunks [] initR invR_init
    simpa [runR] using this
  intro cs
  induction cs with
  | nil => intro pre st h; simpa using h
  | cons c cs ih =>
    intro pre st h
    have h2 := ih (pre ++ c) (stepR st c) (invR_step pre st c h)
    simpa [List.append_assoc] using h2

/-- A terminator-free decomposition of a text into terminated lines plus a
terminator-free remainder is unique. -/
theorem decomp_unique (ls1 : List (List Char)) :
    ∀ (ls2 : List (List Char)) (b1 b2 : List Char),
    (∀ l ∈ ls1, NL ∉ l) → (∀ l ∈ ls2, NL ∉ l) → NL ∉ b1 → NL ∉ b2 →
    rejoin ls1 b1 = rejoin ls2 b2 → ls1 = ls2 ∧ b1 = b2 := by
  induction ls1 with
  | nil =>
    intro ls2 b1 b2 _ hls2 hb1 _ heq
    cases ls2 with
    | nil =>
      rw [rejoin_nil, rejoin_nil] at heq
      exact ⟨rfl, heq⟩
    | cons l2 t2 =>
      exfalso
      rw [rejoin_nil, rejoin_cons] at heq
      apply hb1
      rw [heq]
      simp
  | cons l1 t1 ih =>
    intro ls2 b1 b2 hls1 hls2 hb1 hb2 heq
    cases ls2 with
    | nil =>
      exfalso
      rw [rejoin_cons, rejoin_nil] at heq
      apply hb2
      rw [← heq]
      simp
    | cons l2 t2 =>
      have hnl1 : NL ∉ l1 := hls1 l1 (by simp)
      have hnl2 : NL ∉ l2 := hls2 l2 (by simp)
      rw [rejoin_cons, rejoin_cons] at heq
      have key : ∀ (x y r1 r2 : List Char), NL ∉ x → NL ∉ y →
          x ++ NL :: r1 = y ++ NL :: r2 → x = y ∧ r1 = r2 := by
        intro x
        induction x with
        | nil =>
          intro y r1 r2 _ hy hxy
          cases y with
          | nil => simpa using hxy
          | cons c yt =>
            exfalso
            simp only [List.nil_append, List.cons_append, List.cons.injEq] at hxy
            exact hy (by simp [← hxy.1])
        | cons c xt ihx =>
          intro y r1 r2 hx hy hxy
          cases y with
          | nil =>
            exfalso
            simp only [List.nil_append, List.cons_append, List.cons.injEq] at hxy
            exact hx (by simp [hxy.1])
          | cons d yt =>
            simp only [List.cons_append, List.cons.injEq] at hxy
            have hrec := ihx yt r1 r2 (fun h => hx (by simp [h]))
              (fun h => hy (by simp [h])) hxy.2
            exact ⟨by simp [hxy.1, hrec.1], hrec.2⟩
      obtain ⟨hl, hr⟩ := key l1 l2 (rejoin t1 b1) (rejoin t2 b2) hnl1 hnl2 heq
      have hrec := ih t2 b1 b2 (fun l h => hls1 l (by simp [h]))
        (fun l h => hls2 l (by simp [h])) hb1 hb2 hr
      exact ⟨by simp [hl, hrec.1], hrec.2⟩

/-- The reconstructor state is a function of the consumed text alone. -/
theorem runR_determined (cs1 cs2 : List (List Char)) (h : cs1.flatten = cs2.flatten) :
    runR cs1 = runR cs2 := by
  have h1 := invR_runR cs1
  have h2 := invR_runR cs2
  rw [h] at h1
  obtain ⟨hj1, hl1, hb1⟩ := h1
  obtain ⟨hj2, hl2, hb2⟩ := h2
  have hfields := decomp_unique (runR cs1).lines (runR cs2).lines
    (runR cs1).buffer (runR cs2).buffer hl1 hl2 hb1 hb2 (by rw [hj1, hj2])
  calc runR cs1 = ⟨(runR cs1).lines, (runR cs1).buffer⟩ := rfl
    _ = ⟨(runR cs2).lines, (runR cs2).buffer⟩ := by rw [hfields.1, hfields.2]
    _ = runR cs2 := rfl

/-- C1: chunk-boundary invariance of the streaming consume loop.  For every
way of splitting text B into chunks, consuming the chunks yields the same
loop state (emitted completed lines and pending fragment) as consuming B as
one single chunk, the end-of-stream flush therefore yields the same final
line sequence, and reinserting the terminators into the emitted lines and
appending the pending fragment reproduces B exactly. -/
theorem c1_chunk_boundary_invariance (chunks : List (List Char)) :
    runR chunks = runR [chunks.flatten] ∧
    flushR (runR chunks) = flushR (runR [chunks.flatten]) ∧
    rejoin (runR chunks).lines (runR chunks).buffer = chunks.flatten := by
  have hdet := runR_determined chunks [chunks.flatten] (by simp)
  exact ⟨hdet, by rw [hdet], (invR_runR chunks).1⟩

theorem count_nl_rejoin (ls : List (List Char)) (b : List Char)
    (hls : ∀ l ∈ ls, NL ∉ l) (hb : NL ∉ b) :
    (rejoin ls b).count NL = ls.length := by
  induction ls with
  | nil =>
    rw [rejoin_nil]
    simpa using List.count_eq_zero.mpr hb
  | cons l t ih =>
    rw [rejoin_cons, List.count_append]
    have h1 : l.count NL = 0 := List.count_eq_zero.mpr (hls l (by simp))
    have h2 := ih (fun x hx => hls x (by simp [hx]))
    simp [h1, h2, Nat.add_comm]

/-- C7 (amended): during the initial streaming loop, across every prefix of
every chunk sequence, the number of lines in the store equals the number of
terminators consumed, so the trailing terminator-less fragment is never
among the stored lines; it sits in the pending buffer (which contains no
terminator) and the end-of-stream flush adds exactly one extra line exactly
when that fragment is non-empty.  In the live-tailing variant the committed
store is exactly the emitted line sequence, so the same holds of the store
itself.  (The tail poller of that variant does not obey this; see the
counterexample.) -/
theorem p6Run_vs_runR (chunks : List (List Char)) :
    (p6Run chunks).logLines = (runR chunks).lines ∧
    (p6Run chunks).buffer = (runR chunks).buffer := by
  suffices h : ∀ (cs : List (List Char)) (stP : P6State) (stR : RState),
      stP.logLines = stR.lines → stP.buffer = stR.buffer →
      (cs.foldl p6Step stP).logLines = (cs.foldl stepR stR).lines ∧
      (cs.foldl p6Step stP).buffer = (cs.foldl stepR stR).buffer by
    exact h chunks p6Init initR rfl rfl
  intro cs
  induction cs with
  | nil => intro stP stR h1 h2; exact ⟨h1, h2⟩
  | cons c cs ih =>
    intro stP stR h1 h2
    apply ih
    · show (if (splitNL (stP.buffer ++ c)).1 = [] then stP.logLines
          else stP.logLines ++ (splitNL (stP.buffer ++ c)).1) =
        stR.lines ++ (splitNL (stR.buffer ++ c)).1
      rw [h2, h1]
      by_cases hp : (splitNL (stR.buffer ++ c)).1 = []
      · rw [if_pos hp, hp, List.append_nil]
      · rw [if_neg hp]
    · show (splitNL (stP.buffer ++ c)).2 = (splitNL (stR.buffer ++ c)).2
      rw [h2]

theorem c7_fragment_only_at_eos (chunks : List (List Char)) :
    (p6Run chunks).logLines = (runR chunks).lines ∧
    (runR chunks).lines.length = chunks.flatten.count NL ∧
    NL ∉ (runR chunks).buffer ∧
    rejoin (runR chunks).lines (runR chunks).buffer = chunks.flatten ∧
    (flushR (runR chunks)).length =
      chunks.flatten.count NL + (if (runR chunks).buffer = [] then 0 else 1) := by
  obtain ⟨hj, hls, hb⟩ := invR_runR chunks
  have hcount : (runR chunks).lines.length = chunks.flatten.count NL := by
    rw [← hj, count_nl_rejoin _ _ hls hb]
  refine ⟨(p6Run_vs_runR chunks).1, hcount, hb, hj, ?_⟩
  unfold flushR
  by_cases h : (runR chunks).buffer = []
  · simp [h, hcount]
  · simp [h, hcount]

/-- C6: after full consumption, `totalBytes` equals the total raw byte
length of the stream, for every chunking and every decoder (the counter is
independent of the decoded text); and each arriving chunk increments the
counter by exactly that chunk's raw byte length. -/
theorem c6_total_bytes_exact {σ : Type} (decode : σ → List Byte → σ × List Char)
    (d0 : σ) (chunks : List (List Byte)) :
    (runBytes decode d0 chunks).totalBytes = chunks.flatten.length ∧
    ∀ (st : BState σ) (value : List Byte),
      (stepBytes decode st value).totalBytes = st.totalBytes + value.length := by
  constructor
  · suffices h : ∀ (cs : List (List Byte)) (st : BState σ),
        (cs.foldl (stepBytes decode) st).totalBytes = st.totalBytes + cs.flatten.length by
      simpa [runBytes] using h chunks ⟨0, d0, [], []⟩
    intro cs
    induction cs with
    | nil => intro st; simp
    | cons c cs ih =>
      intro st
      simp only [List.foldl_cons, List.flatten_cons, List.length_append]
      rw [ih]
      simp [stepBytes]
      omega
  · intro st value
    rfl

theorem trimTsx_eq_lastN (ls : List (List Char)) :
    trimTsx ls = lastN MAX_DISPLAY_LINES ls := by
  unfold trimTsx lastN
  by_cases h : MAX_DISPLAY_LINES < ls.length
  · rw [if_pos h]
  · rw [if_neg h]
    have h2 : ls.length - MAX_DISPLAY_LINES = 0 := by omega
    rw [h2, List.drop_zero]

theorem length_lastN (n : Nat) (l : List α) :
    (lastN n l).length = min l.length n := by
  unfold lastN
  rw [List.length_drop]
  omega

theorem lastN_append_lastN (n : Nat) (a b : List α) :
    lastN n (lastN n a ++ b) = lastN n (a ++ b) := by
  unfold lastN
  rw [List.drop_append_eq_append_drop, List.drop_append_eq_append_drop,
    List.drop_drop]
  have h1 : a.length - n +
      ((a.drop (a.length - n) ++ b).length - n) = a.length + b.length - n := by
    simp only [List.length_append, List.length_drop]
    omega
  have h2 : (a.drop (a.length - n) ++ b).length - n -
      (a.drop (a.length - n)).length = (a ++ b).length - n - a.length := by
    simp only [List.length_append, List.length_drop]
    omega
  rw [h1, h2]
  simp [List.length_append]

theorem tsxRun_vs_runR (chunks : List (List Char)) :
    (tsxRun chunks).allLines = lastN MAX_DISPLAY_LINES (runR chunks).lines ∧
    (tsxRun chunks).buffer = (runR chunks).buffer ∧
    (tsxRun chunks).logLines = [] := by
  suffices h : ∀ (cs : List (List Char)) (stT : TsxState) (stR : RState),
      stT.allLines = lastN MAX_DISPLAY_LINES stR.lines → stT.buffer = stR.buffer →
      (cs.foldl tsxStep stT).allLines = lastN MAX_DISPLAY_LINES (cs.foldl stepR stR).lines ∧
      (cs.foldl tsxStep stT).buffer = (cs.foldl stepR stR).buffer ∧
      (cs.foldl tsxStep stT).logLines = stT.logLines by
    have := h chunks tsxInit initR (by simp [tsxInit, initR, lastN]) rfl
    simpa [tsxRun, runR, tsxInit] using this
  intro cs
  induction cs with
  | nil => intro stT stR h1 h2; exact ⟨h1, h2, rfl⟩
  | cons c cs ih =>
    intro stT stR h1 h2
    have hstep1 : (tsxStep stT c).allLines =
        lastN MAX_DISPLAY_LINES (stepR stR c).lines := by
      show (if (splitNL (stT.buffer ++ c)).1 = [] then stT.allLines
          else trimTsx (stT.allLines ++ (splitNL (stT.buffer ++ c)).1)) =
        lastN MAX_DISPLAY_LINES (stR.lines ++ (splitNL (stR.buffer ++ c)).1)
      rw [h2]
      by_cases hp : (splitNL (stR.buffer ++ c)).1 = []
      · rw [if_pos hp, hp, List.append_nil, h1]
      · rw [if_neg hp, h1, trimTsx_eq_lastN, lastN_append_lastN]
    have hstep2 : (tsxStep stT c).buffer = (stepR stR c).buffer := by
      show (splitNL (stT.buffer ++ c)).2 = (splitNL (stR.buffer ++ c)).2
      rw [h2]
    have hrec := ih (tsxStep stT c) (stepR stR c) hstep1 hstep2
    simp only [List.foldl_cons]
    refine ⟨hrec.1, hrec.2.1, ?_⟩
    rw [hrec.2.2]
    rfl

/-- C9: the non-tailing viewer's retained store is capped at 5000 lines.
After consuming any prefix of the chunk sequence the accumulator holds the
most recent `min(total lines produced so far, 5000)` lines, and at
end-of-stream the committed store likewise holds the most recent
`min(total, 5000)` of all produced lines (final fragment included). -/
theorem c9_display_cap (chunks : List (List Char)) :
    (tsxRun chunks).allLines = lastN MAX_DISPLAY_LINES (runR chunks).lines ∧
    (tsxRun chunks).allLines.length = min (runR chunks).lines.length MAX_DISPLAY_LINES ∧
    (tsxFinish (tsxRun chunks)).logLines = lastN MAX_DISPLAY_LINES (flushR (runR chunks)) ∧
    (tsxFinish (tsxRun chunks)).logLines.length =
      min (flushR (runR chunks)).length MAX_DISPLAY_LINES := by
  obtain ⟨h1, h2, _⟩ := tsxRun_vs_runR chunks
  have hfin : (tsxFinish (tsxRun chunks)).logLines =
      lastN MAX_DISPLAY_LINES (flushR (runR chunks)) := by
    show trimTsx (if (tsxRun chunks).buffer = [] then (tsxRun chunks).allLines
        else (tsxRun chunks).allLines ++ [(tsxRun chunks).buffer]) =
      lastN MAX_DISPLAY_LINES (flushR (runR chunks))
    rw [h1, h2, trimTsx_eq_lastN]
    unfold flushR
    by_cases hb : (runR chunks).buffer = []
    · rw [if_pos hb, if_pos hb]
      have := lastN_append_lastN MAX_DISPLAY_LINES (runR chunks).lines ([] : List (List Char))
      simpa using this
    · rw [if_neg hb, if_neg hb, lastN_append_lastN]
  refine ⟨h1, ?_, hfin, ?_⟩
  · rw [h1, length_lastN]
  · rw [hfin, length_lastN]

/-- C4 counterexample: in the non-tailing viewer (`src/components/LogViewer.tsx`,
cited by the claim), cancelling mid-stream after 3 lines were appended to
the local accumulator leaves the exposed line store empty, because that
variant calls `setLogLines` only in the `done` branch: the session does end
`Cancelled`, but the store exposes 0 lines, not 3. -/
theorem c4_counterexample :
    (tsxCancel (tsxRun [['a', NL, 'b', NL, 'c', NL, 'd']])).status = ViewStatus.cancelled ∧
    (tsxRun [['a', NL, 'b', NL, 'c', NL, 'd']]).allLines.length = 3 ∧
    (tsxCancel (tsxRun [['a', NL, 'b', NL, 'c', NL, 'd']])).logLines = [] ∧
    ¬ (tsxCancel (tsxRun [['a', NL, 'b', NL, 'c', NL, 'd']])).logLines.length = 3 := by
  refine ⟨rfl, by decide, by decide, by decide⟩

/-- C4 (amended): in the live-tailing variant, cancelling mid-stream after
k lines have been appended ends the session in the `Cancelled` state with
the line store still exposing exactly those k lines; in the non-tailing
variant the session also ends `Cancelled` but the exposed store stays
empty, since lines are committed only at end-of-stream. -/
theorem c4_cancel_retains_lines (chunks : List (List Char)) (k : Nat)
    (h : (p6Run chunks).logLines.length = k) :
    ((p6Cancel (p6Run chunks)).status = ViewStatus.cancelled ∧
     (p6Cancel (p6Run chunks)).logLines = (p6Run chunks).logLines ∧
     (p6Cancel (p6Run chunks)).logLines.length = k) ∧
    ((tsxCancel (tsxRun chunks)).status = ViewStatus.cancelled ∧
     (tsxCancel (tsxRun chunks)).logLines = []) := by
  refine ⟨⟨rfl, rfl, h⟩, rfl, ?_⟩
  show (tsxRun chunks).logLines = []
  exact (tsxRun_vs_runR chunks).2.2

/-- Witness for `c4_cancel_retains_lines` at the spec's k = 3 scenario,
with a pending fragment still in flight. -/
theorem c4_cancel_retains_lines_witness :
    ((p6Cancel (p6Run [['a', NL, 'b', NL, 'c', NL, 'd']])).status = ViewStatus.cancelled ∧
     (p6Cancel (p6Run [['a', NL, 'b', NL, 'c', NL, 'd']])).logLines =
       (p6Run [['a', NL, 'b', NL, 'c', NL, 'd']]).logLines ∧
     (p6Cancel (p6Run [['a', NL, 'b', NL, 'c', NL, 'd']])).logLines.length = 3) ∧
    ((tsxCancel (tsxRun [['a', NL, 'b', NL, 'c', NL, 'd']])).status = ViewStatus.cancelled ∧
     (tsxCancel (tsxRun [['a', NL, 'b', NL, 'c', NL, 'd']])).logLines = []) :=
  c4_cancel_retains_lines [['a', NL, 'b', NL, 'c', NL, 'd']] 3 (by decide)

theorem nonBlank_iff (l : List Char) :
    nonBlank l = true ↔ ∃ c ∈ l, isJsWs c = false := by
  constructor
  · intro h
    by_contra hc
    push_neg at hc
    have hall : ∀ c ∈ l, isJsWs c = true := by
      intro c hcl
      have := hc c hcl
      simpa using this
    have hd : l.dropWhile isJsWs = [] := List.dropWhile_eq_nil_iff.mpr hall
    simp [nonBlank, jsTrim, hd] at h
  · rintro ⟨c, hcl, hcw⟩
    have step : ∀ (m : List Char), c ∈ m → c ∈ m.dropWhile isJsWs := by
      intro m hm
      have hsplit := List.takeWhile_append_dropWhile (p := isJsWs) (l := m)
      have hm2 : c ∈ m.takeWhile isJsWs ++ m.dropWhile isJsWs := by
        rw [hsplit]; exact hm
      rcases List.mem_append.mp hm2 with h1 | h1
      · have := List.mem_takeWhile_imp h1
        rw [hcw] at this
        exact absurd this (by simp)
      · exact h1
    have h1 : c ∈ l.dropWhile isJsWs := step l hcl
    have h2 : c ∈ ((l.dropWhile isJsWs).reverse.dropWhile isJsWs) :=
      step _ (List.mem_reverse.mpr h1)
    have h3 : ((l.dropWhile isJsWs).reverse.dropWhile isJsWs) ≠ [] := by
      intro he
      rw [he] at h2
      exact absurd h2 (List.not_mem_nil c)
    simp only [nonBlank, jsTrim, Bool.not_eq_true']
    simp [List.isEmpty_iff, h3]

theorem runTail_of_not_live (st : TailState) (rs : List TailResponse)
    (h : st.isLive = false) : runTail st rs = st := by
  induction rs with
  | nil => rfl
  | cons r rs ih =>
    show runTail (if st.isLive then tailStep st r else st) rs = st
    rw [if_neg (by simp [h])]
    exact ih

/-- C8: a failing tail poll stops tailing (live flag cleared, status shows
the tail error), is never retried automatically (all later scheduled polls
are no-ops), and leaves the already-collected lines, the byte offset and
the whole-session error view untouched. -/
theorem c8_tail_failure_stops (st : TailState) (rs : List TailResponse) :
    (tailStep st TailResponse.failure).isLive = false ∧
    (tailStep st TailResponse.failure).logLines = st.logLines ∧
    (tailStep st TailResponse.failure).totalBytes = st.totalBytes ∧
    (tailStep st TailResponse.failure).errorView = st.errorView ∧
    (tailStep st TailResponse.failure).status = ViewStatus.liveError ∧
    runTail (tailStep st TailResponse.failure) rs = tailStep st TailResponse.failure := by
  exact ⟨rfl, rfl, rfl, rfl, rfl, runTail_of_not_live _ rs rfl⟩

/-- C10: every line a tail poll appends contains a non-whitespace
character (whitespace-only segments, including the empty segments produced
by consecutive or trailing terminators, are dropped by the
`l.trim() !== ''` filter), while the byte offset still advances by the
full raw byte length received. -/
theorem c10_tail_lines_nonblank (st : TailState) (byteLen : Nat) (text : List Char) :
    (∀ l ∈ (tailStep st (TailResponse.content byteLen text)).logLines,
        l ∈ st.logLines ∨ ∃ c ∈ l, isJsWs c = false) ∧
    (tailStep st (TailResponse.content byteLen text)).totalBytes =
      st.totalBytes + byteLen := by
  simp only [tailStep]
  by_cases hb : 0 < byteLen
  · rw [if_pos hb]
    constructor
    · intro l hl
      by_cases hn : (jsSplitAll text).filter nonBlank = []
      · left
        rw [if_pos hn] at hl
        exact hl
      · rw [if_neg hn] at hl
        rcases List.mem_append.mp hl with h1 | h1
        · exact Or.inl h1
        · right
          exact (nonBlank_iff l).mp (List.of_mem_filter h1)
    · rfl
  · rw [if_neg hb]
    have hb0 : byteLen = 0 := by omega
    exact ⟨fun l hl => Or.inl hl, by simp [hb0]⟩

theorem splitNL_no_nl (x : List Char) (h : NL ∉ x) : splitNL x = ([], x) := by
  induction x with
  | nil => rfl
  | cons c t ih =>
    have hc : ¬ c = NL := fun he => h (by simp [he])
    have ht := ih (fun hm => h (by simp [hm]))
    simp [splitNL, ht, if_neg hc]

theorem splitNL_append_nl (x y : List Char) (h : NL ∉ x) :
    splitNL (x ++ NL :: y) = (x :: (splitNL y).1, (splitNL y).2) := by
  induction x with
  | nil => simp [splitNL]
  | cons c t ih =>
    have hc : ¬ c = NL := fun he => h (by simp [he])
    have ht := ih (fun hm => h (by simp [hm]))
    simp [List.cons_append, splitNL, List.append_eq, ht, if_neg hc]

/-- C7 counterexample: the tail poller of the live variant (cited by the
claim) appends a trailing fragment that is not followed by a terminator as
soon as its poll delivers it, with no end-of-stream in sight: two bytes
`ab` with no `'\n'` land in the line store immediately. -/
theorem c7_counterexample :
    NL ∉ ['a', 'b'] ∧
    (tailStep tailInit (TailResponse.content 2 ['a', 'b'])).logLines = [['a', 'b']] := by
  constructor
  · decide
  · decide

/-- C3 counterexample: a poll delivering 4 bytes that consist of exactly
two terminated lines, the first of them a single space, grows the line
store by 1, not 2: the tail path filters out whitespace-only lines, which
the initial stream's line reconstruction never does. -/
theorem c3_counterexample :
    NL ∉ [' '] ∧ NL ∉ ['x'] ∧
    (tailStep tailInit (TailResponse.content 4 [' ', NL, 'x', NL])).totalBytes = 4 ∧
    (tailStep tailInit (TailResponse.content 4 [' ', NL, 'x', NL])).logLines.length = 1 ∧
    ¬ (tailStep tailInit (TailResponse.content 4 [' ', NL, 'x', NL])).logLines.length =
        tailInit.logLines.length + 2 := by
  refine ⟨by decide, by decide, by decide, by decide, by decide⟩

/-- C3 (amended): a 416 ("no new content") poll leaves the byte offset and
the line store unchanged; a poll delivering N > 0 raw bytes that consist of
exactly two terminated lines, each containing a non-whitespace character,
grows the line store by exactly 2 and advances the byte offset by exactly
N.  (The tail path is not the initial stream's reconstruction: it splits
each poll response independently and drops whitespace-only segments.) -/
theorem c3_tail_poll (st : TailState) (byteLen : Nat) (l1 l2 : List Char)
    (h1 : NL ∉ l1) (h2 : NL ∉ l2)
    (hw1 : ∃ c ∈ l1, isJsWs c = false) (hw2 : ∃ c ∈ l2, isJsWs c = false)
    (hlen : 0 < byteLen) :
    tailStep st TailResponse.notModified = st ∧
    (tailStep st (TailResponse.content byteLen (l1 ++ NL :: (l2 ++ [NL])))).logLines.length =
      st.logLines.length + 2 ∧
    (tailStep st (TailResponse.content byteLen (l1 ++ NL :: (l2 ++ [NL])))).totalBytes =
      st.totalBytes + byteLen := by
  have hsplit : splitNL (l1 ++ NL :: (l2 ++ [NL])) = ([l1, l2], []) := by
    rw [splitNL_append_nl _ _ h1]
    have : l2 ++ [NL] = l2 ++ NL :: [] := rfl
    rw [this, splitNL_append_nl _ _ h2]
    rfl
  have hall : jsSplitAll (l1 ++ NL :: (l2 ++ [NL])) = [l1, l2, []] := by
    unfold jsSplitAll
    rw [hsplit]
    rfl
  have hnb1 : nonBlank l1 = true := (nonBlank_iff l1).mpr hw1
  have hnb2 : nonBlank l2 = true := (nonBlank_iff l2).mpr hw2
  have hnb0 : nonBlank ([] : List Char) = false := rfl
  have hfilter : (jsSplitAll (l1 ++ NL :: (l2 ++ [NL]))).filter nonBlank = [l1, l2] := by
    rw [hall, List.filter_cons, List.filter_cons, List.filter_cons, hnb1, hnb2, hnb0]
    simp
  refine ⟨rfl, ?_, ?_⟩
  · show (if 0 < byteLen then _ else st).logLines.length = st.logLines.length + 2
    rw [if_pos hlen]
    simp only [hfilter]
    rw [if_neg (by simp)]
    simp
  · show (if 0 < byteLen then _ else st).totalBytes = st.totalBytes + byteLen
    rw [if_pos hlen]

/-- Witness for `c3_tail_poll` at a concrete two-line poll response. -/
theorem c3_tail_poll_witness :
    tailStep tailInit TailResponse.notModified = tailInit ∧
    (tailStep tailInit (TailResponse.content 6
        (['o', 'k'] ++ NL :: (['g', 'o'] ++ [NL])))).logLines.length =
      tailInit.logLines.length + 2 ∧
    (tailStep tailInit (TailResponse.content 6
        (['o', 'k'] ++ NL :: (['g', 'o'] ++ [NL])))).totalBytes =
      tailInit.totalBytes + 6 :=
  c3_tail_poll tailInit 6 ['o', 'k'] ['g', 'o'] (by decide) (by decide)
    (by decide) (by decide) (by decide)

theorem leadsWith_iff (needle hay : List Char) :
    leadsWith needle hay = true ↔ ∃ t, hay = needle ++ t := by
  induction needle generalizing hay with
  | nil => simp [leadsWith]
  | cons a as ih =>
    cases hay with
    | nil =>
      simp [leadsWith]
    | cons b bs =>
      simp only [leadsWith, Bool.and_eq_true, beq_iff_eq]
      constructor
      · rintro ⟨h1, h2⟩
        obtain ⟨t, ht⟩ := (ih bs).mp h2
        exact ⟨t, by simp [h1, ht]⟩
      · rintro ⟨t, ht⟩
        simp only [List.cons_append, List.cons.injEq] at ht
        exact ⟨ht.1.symm, (ih bs).mpr ⟨t, ht.2⟩⟩

theorem hasSub_iff (hay needle : List Char) :
    hasSub hay needle = true ↔ ∃ pre post, hay = pre ++ needle ++ post := by
  induction hay with
  | nil =>
    simp only [hasSub, List.isEmpty_iff]
    constructor
    · intro h
      exact ⟨[], [], by simp [h]⟩
    · rintro ⟨pre, post, h⟩
      rcases List.append_eq_nil.mp (List.append_eq_nil.mp h.symm).1 with ⟨_, h2⟩
      exact h2
  | cons h t ih =>
    simp only [hasSub, Bool.or_eq_true]
    constructor
    · rintro (h1 | h1)
      · obtain ⟨tl, htl⟩ := (leadsWith_iff needle (h :: t)).mp h1
        exact ⟨[], tl, by simp [htl]⟩
      · obtain ⟨pre, post, hp⟩ := ih.mp h1
        exact ⟨h :: pre, post, by simp [hp]⟩
    · rintro ⟨pre, post, hp⟩
      cases pre with
      | nil =>
        left
        exact (leadsWith_iff needle (h :: t)).mpr ⟨post, by simpa using hp⟩
      | cons p ps =>
        right
        apply ih.mpr
        refine ⟨ps, post, ?_⟩
        simp only [List.cons_append, List.cons.injEq] at hp
        exact hp.2

/-- C5: with the empty term the filter returns every line paired with its
original 0-based index, in order; with a non-empty term a pair is in the
result exactly when it is a store entry whose lower-cased text contains the
lower-cased term as a substring (no matching line omitted, no other line
included); and the result is always a subsequence of the indexed store. -/
theorem c5_filter (logLines : List (List Char)) (term : List Char) :
    (term = [] → filteredLines logLines term = logLines.enum) ∧
    (term ≠ [] → ∀ (i : Nat) (l : List Char),
      ((i, l) ∈ filteredLines logLines term ↔
        (logLines[i]? = some l ∧
          ∃ pre post, toLowerStr l = pre ++ toLowerStr term ++ post))) ∧
    List.Sublist (filteredLines logLines term) logLines.enum := by
  refine ⟨?_, ?_, ?_⟩
  · intro h
    simp [filteredLines, h]
  · intro h i l
    rw [show filteredLines logLines term =
        logLines.enum.filter
          (fun p => hasSub (toLowerStr p.2) (toLowerStr term)) from by
      simp [filteredLines, h]]
    rw [List.mem_filter]
    constructor
    · rintro ⟨hmem, hsub⟩
      refine ⟨?_, (hasSub_iff _ _).mp hsub⟩
      exact List.mk_mem_enum_iff_getElem?.mp hmem
    · rintro ⟨hget, hsub⟩
      exact ⟨List.mk_mem_enum_iff_getElem?.mpr hget, (hasSub_iff _ _).mpr hsub⟩
  · by_cases h : term = []
    · simp [filteredLines, h]
    · rw [show filteredLines logLines term =
          logLines.enum.filter
            (fun p => hasSub (toLowerStr p.2) (toLowerStr term)) from by
        simp [filteredLines, h]]
      exact List.filter_sublist _

/-- Witness for `c5_filter`: the empty term passes both lines of a concrete
store through, and the term `B` case-insensitively selects the first line
of that store. -/
theorem c5_filter_witness :
    filteredLines [['a', 'b'], ['c']] [] = List.enum [['a', 'b'], ['c']] ∧
    ((0, ['a', 'b']) ∈ filteredLines [['a', 'b'], ['c']] ['B'] ↔
      ([['a', 'b'], ['c']][(0 : Nat)]? = some ['a', 'b'] ∧
        ∃ pre post, toLowerStr ['a', 'b'] = pre ++ toLowerStr ['B'] ++ post)) :=
  ⟨(c5_filter [['a', 'b'], ['c']] []).1 rfl,
    (c5_filter [['a', 'b'], ['c']] ['B']).2.1 (by decide) 0 ['a', 'b']⟩

theorem floor_div_22 (n : Nat) : ⌊(n : ℚ) / 22⌋ = ((n / 22 : Nat) : Int) := by
  have hdm := Nat.div_add_mod n 22
  have hml : n % 22 < 22 := Nat.mod_lt _ (by norm_num)
  rw [Int.floor_eq_iff]
  constructor
  · rw [le_div_iff₀ (by norm_num : (0:ℚ) < 22)]
    have h1 : ((n / 22 : Nat) : Int) * 22 ≤ (n : Int) := by omega
    exact_mod_cast h1
  · rw [div_lt_iff₀ (by norm_num : (0:ℚ) < 22)]
    have h2 : (n : Int) < (((n / 22 : Nat) : Int) + 1) * 22 := by omega
    exact_mod_cast h2

theorem ceil_div_22 (m : Nat) : ⌈(m : ℚ) / 22⌉ = ((ceilDiv m 22 : Nat) : Int) := by
  have hdiv : ceilDiv m 22 = (m + 21) / 22 := rfl
  have hdm := Nat.div_add_mod (m + 21) 22
  have hml : (m + 21) % 22 < 22 := Nat.mod_lt _ (by norm_num)
  rw [Int.ceil_eq_iff, hdiv]
  constructor
  · rw [lt_div_iff₀ (by norm_num : (0:ℚ) < 22)]
    have h1 : ((((m + 21) / 22 : Nat) : Int) - 1) * 22 < (m : Int) := by omega
    exact_mod_cast h1
  · rw [div_le_iff₀ (by norm_num : (0:ℚ) < 22)]
    have h2 : (m : Int) ≤ (((m + 21) / 22 : Nat) : Int) * 22 := by omega
    exact_mod_cast h2

/-- C2 (amended): the code's projection agrees with the spec's formulas
(true floor and ceiling over the rationals, row height 22, margin 10); the
claim's concrete instance yields startIndex 90 and endIndex 130; and for
`totalRows = 0` the projected slice is always empty because endIndex is
clamped to 0 — though startIndex is not clamped to totalRows, so
startIndex = endIndex can fail at large scroll offsets. -/
theorem c2_viewport (totalRows scrollTop containerHeight : Nat)
    (rows : List (Nat × List Char)) :
    ((startIndex scrollTop : Nat) : Int) = specStartIndex scrollTop ∧
    ((endIndex totalRows scrollTop containerHeight : Nat) : Int) =
      specEndIndex totalRows scrollTop containerHeight ∧
    startIndex 2200 = 90 ∧ endIndex 1000 2200 440 = 130 ∧
    endIndex 0 scrollTop containerHeight = 0 ∧
    jsSlice rows (startIndex scrollTop) (endIndex 0 scrollTop containerHeight) = [] := by
  have hzero : endIndex 0 scrollTop containerHeight = 0 := by
    simp [endIndex]
  refine ⟨?_, ?_, by decide, by decide, hzero, ?_⟩
  · rw [specStartIndex, floor_div_22]
    show ((max 0 (scrollTop / ROW_HEIGHT - 10) : Nat) : Int) =
      max 0 (((scrollTop / 22 : Nat) : Int) - 10)
    rw [ROW_HEIGHT]
    omega
  · rw [specEndIndex, ceil_div_22]
    show ((min totalRows (ceilDiv (scrollTop + containerHeight) ROW_HEIGHT + 10) : Nat) : Int) =
      min (totalRows : Int) (((ceilDiv (scrollTop + containerHeight) 22 : Nat) : Int) + 10)
    rw [ROW_HEIGHT]
    omega
  · rw [hzero]
    simp [jsSlice]

/-- C2 counterexample: for `totalRows = 0` at the claim's own scroll offset
2200, the code yields startIndex = 90 and endIndex = 0, so the projected
range is empty only in the slice sense; `start == end` fails because
startIndex is not clamped to totalRows. -/
theorem c2_counterexample :
    startIndex 2200 = 90 ∧ endIndex 0 2200 440 = 0 ∧
    ¬ startIndex 2200 = endIndex 0 2200 440 := by
  refine ⟨by decide, by decide, by decide⟩

end LFS
